import Mathlib

/-!
Shallow embedding of the rocoder phase-vocoder engine (Rust) in Lean 4,
with theorems checking the natural-language specification against the code.

Modelling conventions:
- `f32` values are modelled as real numbers (`ℝ`); IEEE-754 rounding is not
  modelled.  Where a float operation has a non-real outcome that the code
  relies on (`log10(0) = -inf` flushed to a floor by `max`), the definition
  encodes that outcome explicitly and says so in a comment.
- Rust panics (`unwrap`, out-of-bounds indexing, explicit `panic!`) are
  modelled by `Option`, with `none` for the panic.
- `usize` arithmetic that can wrap is modelled explicitly modulo `2^64`
  (release-build wrapping semantics).
- Durations are modelled as exact rational seconds or integer milliseconds;
  `Duration` in Rust is an integer number of nanoseconds, and all concrete
  values appearing in theorems are exactly representable.
-/

namespace Rocoder

/-! ### power.rs -/

/-- Floor used by `relative_decibels` (src/power.rs, `MIN_DECIBELS`). -/
def MIN_DECIBELS : ℝ := -99999999

/-- Model of `relative_decibels` (src/power.rs): `(raw_amp.abs().log10() * 20.0).max(MIN_DECIBELS)`.
IEEE `log10(0.0) = -inf` and `(-inf).max(m) = m`; the zero case is therefore
written as an explicit branch returning the floor. -/
noncomputable def relative_decibels (raw_amp : ℝ) : ℝ :=
  if |raw_amp| = 0 then MIN_DECIBELS
  else max (Real.logb 10 |raw_amp| * 20) MIN_DECIBELS

/-- Model of the `max_by` fold in `audio_power`: maximum of absolute values of
a sample slice.  `none` models the `unwrap` panic on an empty slice. -/
def maxAbs : List ℝ → Option ℝ
  | [] => none
  | s :: rest => some (rest.foldl (fun acc x => max acc |x|) |s|)

/-- Model of `audio_power` (src/power.rs): peak absolute amplitude converted
to decibels.  `none` models the panic on an empty input slice. -/
noncomputable def audio_power (audio : List ℝ) : Option ℝ :=
  (maxAbs audio).map relative_decibels

/-! ### resampler.rs -/

/-- Model of `lerp` (src/resampler.rs). -/
noncomputable def lerp (start stop ratio : ℝ) : ℝ :=
  start + (stop - start) * ratio

/-- Model of `resample_faster` (src/resampler.rs): `samples.into_iter().step_by(factor)`,
i.e. keep exactly the elements whose index is a multiple of `factor`.
The `debug_assert!(factor > 1)` is compiled out in release builds and is not
modelled here. -/
def resample_faster (samples : List ℝ) (factor : ℕ) : List ℝ :=
  (samples.enum.filter (fun p => p.1 % factor = 0)).map Prod.snd

/-- Model of `resample_slower` (src/resampler.rs): for each adjacent pair of
samples push `factor` interpolated values.  The loop bound `samples.len() - 1`
underflows for an empty input (panic in any build); `none` models that.
The `debug_assert!(factor > 1)` is compiled out in release builds; with
`factor = 0` the inner loop body never runs and the result is empty. -/
noncomputable def resample_slower (samples : List ℝ) (factor : ℕ) : Option (List ℝ) :=
  match samples with
  | [] => none
  | _ :: _ =>
    some ((samples.zip samples.tail).flatMap
      (fun p => (List.range factor).map
        (fun j => lerp p.1 p.2 ((j : ℝ) / (factor : ℝ)))))

/-- Model of `resample` (src/resampler.rs).  The source dispatches on an `i8`
factor: `factor > 1` to `resample_faster`, `factor < 1` (including `0` and all
negatives) to `resample_slower` with `factor.abs()`, and the remaining case
`factor == 1` to `panic!("invalid resample factor")`, modelled as `none`. -/
noncomputable def resample (samples : List ℝ) (factor : ℤ) : Option (List ℝ) :=
  if 1 < factor then some (resample_faster samples factor.toNat)
  else if factor < 1 then resample_slower samples factor.natAbs
  else none

/-! ### duration_parser.rs -/

/-- Model of Rust `str::split(":")` on the character list of a string:
maximal runs between separator occurrences, keeping empty segments.  The
source uses `rsplit`, modelled below by reversing this result. -/
def splitOnChar (sep : Char) : List Char → List (List Char)
  | [] => [[]]
  | c :: rest =>
    match splitOnChar sep rest with
    | [] => [[]]
    | h :: t => if c = sep then [] :: h :: t else (c :: h) :: t

/-- Value of a nonempty all-digit character run, as parsed by Rust integer
and float parsing. -/
def digitsToNat? (l : List Char) : Option ℕ :=
  if l ≠ [] ∧ l.all Char.isDigit
  then some (l.foldl (fun a c => a * 10 + (c.toNat - 48)) 0)
  else none

/-- Model of Rust `str::parse::<u64>`: optional leading `+`, then decimal
digits; overflow past `u64::MAX` is an error. -/
def parseU64 (l : List Char) : Option ℕ :=
  let t := match l with
    | '+' :: r => r
    | _ => l
  (digitsToNat? t).bind (fun v => if v < 2 ^ 64 then some v else none)

/-- Exact value of a parsed decimal literal: `(-1)^neg * mantissa / 10^scale`.
Rust parses the seconds field to `f32`; the model keeps the exact decimal
value instead of rounding it to `f32`. -/
structure DecimalVal where
  neg : Bool
  mantissa : ℕ
  scale : ℕ

/-- Value of a possibly empty digit run inside a decimal literal (an empty
integer or fractional part contributes zero). -/
def digitsVal (l : List Char) : Option ℕ :=
  if l.isEmpty then some 0 else digitsToNat? l

/-- Model of Rust `str::parse::<f32>` restricted to plain decimal literals
(optional sign, digits, optional `.` and fraction digits), the only forms the
specification exercises.  Exponent, `inf` and `nan` forms are not modelled. -/
def parseF32 (l : List Char) : Option DecimalVal :=
  let (neg, t) : Bool × List Char := match l with
    | '-' :: r => (true, r)
    | '+' :: r => (false, r)
    | _ => (false, l)
  match splitOnChar '.' t with
  | [intPart] => (digitsVal intPart).bind
      (fun n => if intPart.isEmpty then none else some ⟨neg, n, 0⟩)
  | [intPart, fracPart] =>
    if intPart.isEmpty ∧ fracPart.isEmpty then none
    else (digitsVal intPart).bind (fun n =>
      (digitsVal fracPart).map (fun f =>
        ⟨neg, n * 10 ^ fracPart.length + f, fracPart.length⟩))
  | _ => none

/-- Model of `(seconds_val * 1000.0) as u64` (src/duration_parser.rs): a
float-to-integer `as` cast truncates toward zero and saturates at the bounds
of the target type; every negative value therefore becomes `0`.  For a
nonnegative decimal `mantissa / 10^scale`, truncation toward zero of the
product with 1000 is natural-number division. -/
def secsToU64Millis (d : DecimalVal) : ℕ :=
  if d.neg ∧ d.mantissa ≠ 0 then 0
  else min (d.mantissa * 1000 / 10 ^ d.scale) (2 ^ 64 - 1)

/-- Model of `parse_duration` (src/duration_parser.rs), returning the parsed
duration in integer milliseconds (`Duration::from_millis` plus whole-second
contributions from the minutes and hours fields).  The input is split on `:`
and read right to left (`rsplit`); more than three fields is an error, the
seconds field is parsed as `f32`, minutes and hours as `u64`. -/
def parse_duration (s : String) : Option ℕ :=
  let parts := (splitOnChar ':' s.data).reverse
  if 3 < parts.length ∨ parts.length < 1 then none
  else
    (parts.get? 0).bind (fun secondsStr =>
      (parseF32 secondsStr).bind (fun secondsVal =>
        let base := secsToU64Millis secondsVal
        let withMinutes : Option ℕ :=
          match parts.get? 1 with
          | none => some base
          | some minutesStr =>
            (parseU64 minutesStr).map (fun m => base + m * 60 * 1000)
        match parts.get? 2 with
        | none => withMinutes
        | some hoursStr =>
          withMinutes.bind (fun acc =>
            (parseU64 hoursStr).map (fun h => acc + h * 60 * 60 * 1000))))

/-! ### mixer.rs: keyframes -/

/-- Model of `Keyframe` (src/mixer.rs). -/
structure Keyframe where
  sample_pos : ℕ
  val : ℝ

/-- Fuel-indexed body of the `prune_keyframes` loop (src/mixer.rs,
`Layer::prune_keyframes`): while the list has more than one entry and the
second-to-last entry (the "next" keyframe in the descending order) lies
strictly before the playback position, pop the last entry. -/
def pruneKeyframesGo (pos : ℕ) : ℕ → List Keyframe → List Keyframe
  | 0, kfs => kfs
  | fuel + 1, kfs =>
    if 1 < kfs.length then
      match kfs.get? (kfs.length - 2) with
      | some k =>
        if k.sample_pos < pos then pruneKeyframesGo pos fuel kfs.dropLast
        else kfs
      | none => kfs
    else kfs

/-- Model of `Layer::prune_keyframes` (src/mixer.rs).  Each loop iteration
removes one keyframe, so the list length bounds the iteration count and is
used as fuel. -/
def prune_keyframes (kfs : List Keyframe) (pos : ℕ) : List Keyframe :=
  pruneKeyframesGo pos kfs.length kfs

/-- Model of `Layer::sort_keyframes` (src/mixer.rs): a stable sort by
`sample_pos` (the `Ord` on `Keyframe` compares only `sample_pos`) followed by
`reverse`, leaving the list in descending `sample_pos` order.  Any stable
sort computes the same list as `Vec::sort`; insertion sort is used here. -/
def sort_keyframes (kfs : List Keyframe) : List Keyframe :=
  (kfs.insertionSort (fun a b => a.sample_pos ≤ b.sample_pos)).reverse

/-! ### math.rs -/

/-- Model of `sqrt_interp` (src/math.rs). -/
noncomputable def sqrt_interp (start stop ratio : ℝ) : ℝ :=
  let progress := ((ratio * 2) - 1) * (if start < stop then 1 else -1)
  let factor := Real.sqrt (0.5 * (1 + progress))
  let abs_interval := |stop - start|
  (if start < stop then start else stop) + abs_interval * factor

/-! ### usize arithmetic -/

/-- Modulus of `usize` arithmetic on a 64-bit target. -/
def USIZE_MOD : ℕ := 2 ^ 64

/-- Wrapping `usize` subtraction, the release-build semantics of `a - b` on
`usize` operands (debug builds panic on underflow instead). -/
def wrapSub (a b : ℕ) : ℕ :=
  (a % USIZE_MOD + (USIZE_MOD - b % USIZE_MOD)) % USIZE_MOD

/-! ### mixer.rs: Layer -/

/-- Model of the mixer `Layer` (src/mixer.rs).  The audio bus is modelled by
the list of chunks it will deliver (`queue`); an exhausted queue models a
disconnected bus.  `buffer` is the current chunk (one sample list per
channel) and `buffer_pos` the read cursor into it. -/
structure Layer where
  amp_keyframes : List Keyframe
  total_samples_played : ℕ
  sample_rate : ℕ
  expected_total_samples : Option ℕ
  buffer : List (List ℝ)
  buffer_pos : ℕ
  queue : List (List (List ℝ))

/-- Core of `Layer::current_amp` (src/mixer.rs) as a function of the keyframe
list and playback position.  With at least two keyframes, `prev` is the last
element of the descending list and `next` the second-to-last; both
subtractions are `usize` subtractions and are modelled as wrapping.  The
guarded `getD` accesses are in bounds whenever the length tests hold. -/
noncomputable def currentAmpAt (kfs : List Keyframe) (total : ℕ) : ℝ :=
  if kfs.length = 0 then 1
  else if kfs.length = 1 then (kfs.headD ⟨0, 0⟩).val
  else
    let prev := kfs.getD (kfs.length - 1) ⟨0, 0⟩
    let next := kfs.getD (kfs.length - 2) ⟨0, 0⟩
    let progress := (wrapSub total prev.sample_pos : ℝ) /
      (wrapSub next.sample_pos prev.sample_pos : ℝ)
    sqrt_interp prev.val next.val progress

/-- Model of `Layer::current_amp` (src/mixer.rs). -/
noncomputable def Layer.current_amp (l : Layer) : ℝ :=
  currentAmpAt l.amp_keyframes l.total_samples_played

/-- The `usize` numerator `self.total_samples_played - prev.sample_pos`
computed by `Layer::current_amp` in its two-or-more-keyframes branch
(src/mixer.rs), with the branch guard made explicit. -/
def Layer.current_amp_numerator (l : Layer) : Option ℕ :=
  if 2 ≤ l.amp_keyframes.length then
    some (wrapSub l.total_samples_played
      ((l.amp_keyframes.getD (l.amp_keyframes.length - 1) ⟨0, 0⟩).sample_pos))
  else none

/-- Model of `Layer::dur_to_sample` (src/mixer.rs):
`(dur.as_secs_f32() * sample_rate as f32) as usize`.  Durations are modelled
as exact rational seconds; a `Duration` is nonnegative, so the truncating
`as usize` cast is the floor. -/
def dur_to_sample (sample_rate : ℕ) (dur : ℚ) : ℕ :=
  (⌊dur * sample_rate⌋).toNat

/-- Model of `Layer::fade` (src/mixer.rs): push a keyframe at `start` with
`start_val` and one at `start + dur` with `end_val`, then re-sort. -/
noncomputable def Layer.fade (l : Layer) (start : ℚ) (start_val : ℝ)
    (dur : ℚ) (end_val : ℝ) : Layer :=
  { l with amp_keyframes := sort_keyframes (l.amp_keyframes ++
      [⟨dur_to_sample l.sample_rate start, start_val⟩,
       ⟨dur_to_sample l.sample_rate (start + dur), end_val⟩]) }

/-- Model of `Layer::fade_from_now` (src/mixer.rs). -/
noncomputable def Layer.fade_from_now (l : Layer) (toVal : ℝ) (dur : ℚ) : Layer :=
  { l with amp_keyframes := sort_keyframes (l.amp_keyframes ++
      [⟨l.total_samples_played, l.current_amp⟩,
       ⟨l.total_samples_played + dur_to_sample l.sample_rate dur, toVal⟩]) }

/-- Model of `Layer::fade_in_out` (src/mixer.rs): fade in only when
`fade_in_dur` is present; fade out only when both `fade_out_dur` and the bus
`expected_total_samples` are present.  `Duration` subtraction panics when the
fade-out is longer than the expected total duration; `none` models that. -/
noncomputable def Layer.fade_in_out (l : Layer)
    (fade_in_dur fade_out_dur : Option ℚ) : Option Layer :=
  let l1 := match fade_in_dur with
    | some d => l.fade 0 0 d 1
    | none => l
  match fade_out_dur, l1.expected_total_samples with
  | some dOut, some expected =>
    let total_dur : ℚ := (expected : ℚ) / (l1.sample_rate : ℚ)
    if dOut ≤ total_dur then some (l1.fade (total_dur - dOut) 1 dOut 0)
    else none
  | _, _ => some l1

/-! ### mixer.rs: fill_buffer (single-layer projection) -/

/-- The in-place amplitude loop of `Layer::load_next_chunk` (src/mixer.rs):
for each `index` in `0..chunk.data[0].len()`, evaluate the current amplitude,
multiply `channel[index]` by it in every channel, and advance
`total_samples_played`.  The fuel `n` counts the remaining indices; `none`
models an out-of-bounds `channel[index]` (a channel shorter than channel 0). -/
noncomputable def ampScaleGo (kfs : List Keyframe) :
    ℕ → ℕ → ℕ → List (List ℝ) → Option (List (List ℝ) × ℕ)
  | 0, total, _, chunk => some (chunk, total)
  | n + 1, total, idx, chunk =>
    let amp := currentAmpAt kfs total
    (chunk.mapM (fun ch =>
      if h : idx < ch.length then some (ch.set idx (ch.get ⟨idx, h⟩ * amp))
      else none)).bind
      (fun chunk2 => ampScaleGo kfs n (total + 1) (idx + 1) chunk2)

/-- Model of `Layer::load_next_chunk` (src/mixer.rs): prune keyframes, pull
the next chunk from the bus, scale it in place by the per-sample amplitude,
and reset `buffer_pos`.  The outer `some none` models `collect_chunk`
returning `Err` (bus disconnected: the caller evicts the layer); the outer
`none` models an indexing panic. -/
noncomputable def Layer.load_next_chunk (l : Layer) : Option (Option Layer) :=
  let kfs := prune_keyframes l.amp_keyframes l.total_samples_played
  match l.queue with
  | [] => some none
  | chunk :: rest =>
    (chunk.head?).bind (fun ch0 =>
      (ampScaleGo kfs ch0.length l.total_samples_played 0 chunk).map (fun res =>
        some { l with
                amp_keyframes := kfs,
                total_samples_played := res.2,
                buffer := res.1,
                buffer_pos := 0,
                queue := rest }))

/-- One frame slot of `Mixer::fill_buffer` (src/mixer.rs) restricted to a
single layer: when the current chunk is exhausted — tested against the length
of channel 0 only — pull the next chunk; then read
`buffer.data[channel_idx][buffer_pos]` for every `channel_idx` below the
interleaved output width and advance `buffer_pos`.  The outer `none` models
an indexing panic, the inner `none` an evicted (disconnected) layer. -/
noncomputable def mixFrameStep (width : ℕ) (l : Layer) :
    Option (Option (List ℝ × Layer)) :=
  (l.buffer.head?).bind (fun ch0 =>
    (if ch0.length ≤ l.buffer_pos then l.load_next_chunk else some (some l)).bind
      (fun res =>
        match res with
        | none => some none
        | some l2 =>
          ((List.range width).mapM (fun c =>
            (l2.buffer.get? c).bind (fun ch => ch.get? l2.buffer_pos))).map
            (fun frame => some (frame, { l2 with buffer_pos := l2.buffer_pos + 1 }))))

/-- Iterated frame slots of `Mixer::fill_buffer` (src/mixer.rs) for a single
layer; after the layer is evicted the remaining frame slots touch no data. -/
noncomputable def fill_buffer_layer : ℕ → ℕ → Layer → Option (Option Layer)
  | 0, _, l => some (some l)
  | n + 1, width, l =>
    (mixFrameStep width l).bind (fun res =>
      match res with
      | none => some none
      | some (_, l2) => fill_buffer_layer n width l2)

/-! ### fft.rs -/

/-- Model of the constant `TWO_PI` (src/fft.rs, line 10).  The source defines
it as `f32::consts::PI`. -/
noncomputable def TWO_PI : ℝ := Real.pi

/-- Model of the phase-randomization map in `ReFFT::resynth_from_fft_result`
(src/fft.rs): every bin `c` is replaced by
`Complex::new(0.0, rng.gen_range(0.0, TWO_PI)).exp() * c.norm()`.  The
successive draws of the thread-local PRNG are modelled by the oracle
`phases`, indexed by bin position; the `gen_range(0.0, TWO_PI)` contract
constrains each draw to `[0, TWO_PI)`. -/
noncomputable def resynth_phase_randomize (phases : ℕ → ℝ)
    (fft_result : List ℂ) : List ℂ :=
  fft_result.enum.map (fun p =>
    Complex.exp (Complex.I * phases p.1) * (Complex.abs p.2 : ℂ))

/-! ### installation_processor.rs -/

/-- Model of `InstallationProcessor::chunked_moving_average_amp`
(src/installation/src/installation_processor.rs): with `L` the length of the
most recent chunk of channel 0 and `N` the window size,
`last_avg * ((N - L) as f32 / N as f32) + (maxPower * L as f32) / N as f32`,
where `maxPower` is the maximum over channels of `audio_power` of that
channel's most recent chunk.  `none` models the `unwrap` panics (no channels,
an empty channel buffer, or an empty chunk); note `N - L` is a `usize`
subtraction. -/
noncomputable def chunked_moving_average_amp (last_avg : ℝ) (window_size : ℕ)
    (recording_buffers : List (List (List ℝ))) : Option ℝ :=
  (recording_buffers.head?).bind (fun b0 =>
    (b0.getLast?).bind (fun lastChunk =>
      let last_chunk_len := lastChunk.length
      (recording_buffers.mapM (fun (chunks : List (List ℝ)) =>
        (chunks.getLast?).bind audio_power)).bind
        (fun powers => (powers.max?).map (fun maxPower =>
          last_avg * (((window_size - last_chunk_len : ℕ) : ℝ) / (window_size : ℝ))
            + maxPower * (last_chunk_len : ℝ) / (window_size : ℝ)))))

/-- Model of `ListeningState` (src/installation/src/installation_processor.rs). -/
inductive ListeningState
  | Idle
  | Active
deriving DecidableEq

/-- Capacity of the per-channel recording ring
(src/installation/src/installation_processor.rs, `REC_BUF_CHUNKS`). -/
def REC_BUF_CHUNKS : ℕ := 256

/-- The mutable state of `InstallationProcessor::run` that the listening
state machine reads and writes. -/
structure InstallationState where
  ambient_amplitude : ℝ
  current_amplitude : ℝ
  recording_buffers : List (List (List ℝ))
  listening_state : ListeningState
  recording_buffer_listen_start : ℤ

/-- Appending a received chunk to one channel ring: when the ring is full,
`truncate_front(REC_BUF_CHUNKS - 1)` keeps the newest 255 chunks before the
push, and the truncation is reported. -/
def pushRecChunk (buf : List (List ℝ)) (chunk : List ℝ) : List (List ℝ) × Bool :=
  if buf.length = REC_BUF_CHUNKS then (buf.drop 1 ++ [chunk], true)
  else (buf ++ [chunk], false)

/-- One iteration of the main loop of `InstallationProcessor::run`
(src/installation/src/installation_processor.rs): receive one chunk per
channel (a mismatched channel count cannot arise from the recorder bus),
decrement `recording_buffer_listen_start` if any ring truncated, update both
moving averages, then run the listening state machine.  `timeOk` models the
test `Instant::now() > dont_record_until`; the stretcher-spawning side
effects of the `Active -> Idle` transition do not touch this state and are
not modelled.  `none` models a panic. -/
noncomputable def installation_step (ambientN currentN : ℕ)
    (activation_step : ℝ) (timeOk : Bool) (newChunks : List (List ℝ))
    (st : InstallationState) : Option InstallationState :=
  if newChunks.length = st.recording_buffers.length then
    let pairs := (st.recording_buffers.zip newChunks).map
      (fun p => pushRecChunk p.1 p.2)
    let bufs2 := pairs.map Prod.fst
    let truncated := pairs.any Prod.snd
    let ls := if truncated then st.recording_buffer_listen_start - 1
              else st.recording_buffer_listen_start
    (chunked_moving_average_amp st.ambient_amplitude ambientN bufs2).bind
      (fun ambient2 =>
        (chunked_moving_average_amp st.current_amplitude currentN bufs2).bind
          (fun current2 =>
            (bufs2.head?).map (fun b0 =>
              match st.listening_state with
              | .Idle =>
                if timeOk ∧ b0.length > REC_BUF_CHUNKS / 2
                    ∧ current2 > ambient2 + activation_step
                then ⟨ambient2, current2, bufs2, .Active, (b0.length : ℤ)⟩
                else ⟨ambient2, current2, bufs2, .Idle, ls⟩
              | .Active =>
                if ls = 0 ∨ current2 < ambient2 - activation_step
                then ⟨ambient2, current2, bufs2, .Idle, ls⟩
                else ⟨ambient2, current2, bufs2, .Active, ls⟩)))
  else none

/-- Iterated main-loop of `InstallationProcessor::run`: at iteration `k` the
recorder delivers the chunks `(inputs k).2` and the cool-down test
`Instant::now() > dont_record_until` evaluates to `(inputs k).1`. -/
noncomputable def installation_run (ambientN currentN : ℕ)
    (activation_step : ℝ) (inputs : ℕ → Bool × List (List ℝ)) :
    ℕ → InstallationState → Option InstallationState
  | 0, st => some st
  | n + 1, st =>
    (installation_step ambientN currentN activation_step
        (inputs n).1 (inputs n).2 st).bind
      (installation_run ambientN currentN activation_step inputs n)

/-- Initial values of the state of `InstallationProcessor::run`: both
amplitude averages start at `-50.0`, the rings are empty, the state is Idle. -/
def initialInstallationState (channels : ℕ) : InstallationState :=
  ⟨-50, -50, List.replicate channels [], .Idle, 0⟩

/-- Well-formedness of one chunk relative to the interleaved output width:
at least `width` channels, a nonempty channel 0, and all channels of equal
length.  This is the precondition of claim C9. -/
def chunkWF (width : ℕ) (chunk : List (List ℝ)) : Prop :=
  width ≤ chunk.length ∧ 0 < (chunk.headD []).length ∧
    ∀ ch ∈ chunk, ch.length = (chunk.headD []).length

/-- Well-formedness of a mixer layer for `fill_buffer`: the current chunk and
every chunk still queued on its bus are well formed. -/
def layerChunksWF (width : ℕ) (l : Layer) : Prop :=
  chunkWF width l.buffer ∧ ∀ chunk ∈ l.queue, chunkWF width chunk

/-! ## Theorems -/

/-- Every value of `relative_decibels` is at least the floor. -/
theorem relative_decibels_ge (r : ℝ) : MIN_DECIBELS ≤ relative_decibels r := by
  unfold relative_decibels
  split
  · exact le_refl _
  · exact le_max_right _ _

/-- The abs-max fold over an all-zero list stays at zero. -/
theorem foldl_maxAbs_zero (m : ℕ) :
    List.foldl (fun acc x => max acc |x|) (0 : ℝ) (List.replicate m (0 : ℝ)) = 0 := by
  induction m with
  | zero => simp
  | succ k ih =>
    rw [List.replicate_succ, List.foldl_cons]
    simpa using ih

/-- Claim C5: pruning a keyframe list at sample positions `[4000, 1500, 1000]`
(descending) is the identity at playback positions 900 and 1200, leaves
`[4000, 1500]` at position 2000, and leaves `[4000]` at position 5000. -/
theorem c5_prune_keyframes_scenarios :
    prune_keyframes [⟨4000, 1⟩, ⟨1500, 1⟩, ⟨1000, 1⟩] 900
      = [⟨4000, 1⟩, ⟨1500, 1⟩, ⟨1000, 1⟩] ∧
    prune_keyframes [⟨4000, 1⟩, ⟨1500, 1⟩, ⟨1000, 1⟩] 1200
      = [⟨4000, 1⟩, ⟨1500, 1⟩, ⟨1000, 1⟩] ∧
    prune_keyframes [⟨4000, 1⟩, ⟨1500, 1⟩, ⟨1000, 1⟩] 2000
      = [⟨4000, 1⟩, ⟨1500, 1⟩] ∧
    prune_keyframes [⟨4000, 1⟩, ⟨1500, 1⟩, ⟨1000, 1⟩] 5000
      = [⟨4000, 1⟩] :=
  ⟨rfl, rfl, rfl, rfl⟩

/-- Claim C7: `parse_duration` maps `"1"` to 1 s, `"1:1"` to 61 s, `"1:1:1"`
to 3661 s, `"1:1:1.234"` to 3661.234 s (all stated in milliseconds), and
rejects `"1:2:3:4"` (four fields) and `"1:2.9:4"` (fractional minutes). -/
theorem c7_parse_duration_scenarios :
    parse_duration "1" = some 1000 ∧
    parse_duration "1:1" = some 61000 ∧
    parse_duration "1:1:1" = some 3661000 ∧
    parse_duration "1:1:1.234" = some 3661234 ∧
    parse_duration "1:2:3:4" = none ∧
    parse_duration "1:2.9:4" = none := by
  decide

/-- Claim C2 (code bug): `resample` with factor 1 takes the `panic!` branch
instead of being the identity, while factor 0 is routed to `resample_slower`
and yields an empty output instead of being rejected; factor 2 keeps every
second sample as intended. -/
theorem c2_resample_factor_one_and_zero :
    resample [(0.5 : ℝ)] 1 = none ∧
    resample [(0.5 : ℝ), 2] 0 = some [] ∧
    resample [(1 : ℝ), 2, 3, 4] 2 = some [1, 3] := by
  refine ⟨?_, ?_, ?_⟩
  · simp [resample]
  · simp [resample, resample_slower]
  · norm_num [resample, resample_faster]
    rfl

/-- Claim C1 (code bug): the upper bound `TWO_PI` of the per-bin random phase
draw `rng.gen_range(0.0, TWO_PI)` is defined as `f32::consts::PI`, so it
equals π and is strictly less than 2π; the resynthesis itself does replace a
bin by `magnitude · exp(i·phase)`, as checked on the bin `3` with phase 0. -/
theorem c1_phase_range_bug :
    TWO_PI = Real.pi ∧ TWO_PI < 2 * Real.pi ∧
    resynth_phase_randomize (fun _ => 0) [(3 : ℂ)] = [(3 : ℂ)] := by
  refine ⟨rfl, ?_, ?_⟩
  · unfold TWO_PI
    nlinarith [Real.pi_pos]
  · simp [resynth_phase_randomize, List.enum]

/-- Claim C4: `audio_power` of any nonempty chunk is defined and at least
−99999999; on an all-zero chunk it is exactly the floor; and on a one-sample
chunk `[x]` with `x ≠ 0` it is `20 · log10 |x|` whenever that value does not
fall below the floor (every nonzero `f32` satisfies this: the smallest
positive subnormal is about `1.4e-45`, whose power is about −897 dB). -/
theorem c4_audio_power_bounds :
    (∀ l : List ℝ, l ≠ [] → ∃ v, audio_power l = some v ∧ MIN_DECIBELS ≤ v) ∧
    (∀ n : ℕ, 0 < n → audio_power (List.replicate n (0 : ℝ)) = some MIN_DECIBELS) ∧
    (∀ x : ℝ, x ≠ 0 → MIN_DECIBELS ≤ Real.logb 10 |x| * 20 →
      audio_power [x] = some (Real.logb 10 |x| * 20)) := by
  refine ⟨?_, ?_, ?_⟩
  · intro l hl
    match l with
    | s :: t =>
      exact ⟨relative_decibels (t.foldl (fun acc x => max acc |x|) |s|),
        rfl, relative_decibels_ge _⟩
  · intro n hn
    match n, hn with
    | m + 1, _ =>
      have h0 : audio_power (List.replicate (m + 1) (0 : ℝ))
          = some (relative_decibels
            (List.foldl (fun acc x => max acc |x|) |(0 : ℝ)| (List.replicate m 0))) := by
        simp [audio_power, maxAbs, List.replicate_succ]
      rw [h0]
      have h1 : |(0 : ℝ)| = 0 := abs_zero
      rw [h1, foldl_maxAbs_zero]
      simp [relative_decibels]
  · intro x hx hfloor
    have h0 : audio_power [x] = some (relative_decibels |x|) := by
      simp [audio_power, maxAbs]
    rw [h0]
    unfold relative_decibels
    rw [abs_abs]
    rw [if_neg (by simpa using hx)]
    exact congrArg some (max_eq_left hfloor)

/-- Witness for C4 at the concrete inputs `[10]` and `[0]`. -/
theorem c4_witness :
    (∃ v, audio_power [(10 : ℝ)] = some v ∧ MIN_DECIBELS ≤ v) ∧
    audio_power (List.replicate 1 (0 : ℝ)) = some MIN_DECIBELS ∧
    audio_power [(10 : ℝ)] = some (Real.logb 10 |(10 : ℝ)| * 20) := by
  refine ⟨c4_audio_power_bounds.1 [10] (by simp),
    c4_audio_power_bounds.2.1 1 (by norm_num),
    c4_audio_power_bounds.2.2 10 (by norm_num) ?_⟩
  rw [abs_of_nonneg (by norm_num : (0 : ℝ) ≤ 10)]
  rw [Real.logb_self_eq_one (by norm_num)]
  norm_num [MIN_DECIBELS]

/-- Wrapping subtraction agrees with mathematical subtraction exactly when
the subtrahend does not exceed the minuend (and values fit in `usize`). -/
theorem wrapSub_of_le (a b : ℕ) (hba : b ≤ a) (ha : a < USIZE_MOD) :
    wrapSub a b = a - b := by
  unfold USIZE_MOD at ha
  unfold wrapSub USIZE_MOD
  omega

/-- One second at 44100 Hz is 44100 samples. -/
theorem dur_to_sample_44100_1 : dur_to_sample 44100 1 = 44100 := by
  unfold dur_to_sample
  norm_num
  omega

/-- Three seconds at 44100 Hz is 132300 samples. -/
theorem dur_to_sample_44100_3 : dur_to_sample 44100 (1 + 2) = 132300 := by
  unfold dur_to_sample
  norm_num
  omega

/-- Claim C10: with at least two keyframes, `current_amp` computes
`total_samples_played - prev.sample_pos` on `usize` operands, `prev` being
the last (earliest) keyframe of the descending list; the value is the true
difference exactly under the precondition `prev.sample_pos ≤
total_samples_played`, and a layer produced by `fade` with a start beyond
the playback position (or by `fade_in_out` with only a fade-out) violates
that precondition, wrapping the subtraction around `2^64`. -/
theorem c10_current_amp_underflow :
    (∀ (l : Layer) (prev : Keyframe),
      2 ≤ l.amp_keyframes.length →
      l.amp_keyframes.getD (l.amp_keyframes.length - 1) ⟨0, 0⟩ = prev →
      prev.sample_pos ≤ l.total_samples_played →
      l.total_samples_played < USIZE_MOD →
      l.current_amp_numerator = some (l.total_samples_played - prev.sample_pos)) ∧
    (Layer.fade ⟨[], 0, 44100, none, [], 0, []⟩ 1 0 2 1).current_amp_numerator
      = some (USIZE_MOD - 44100) ∧
    (Layer.fade_in_out ⟨[], 0, 10, some 100, [], 0, []⟩ none (some 1)).map
      (fun l => l.current_amp_numerator) = some (some (USIZE_MOD - 90)) := by
  refine ⟨?_, ?_, ?_⟩
  · intro l prev h2 hprev hle hlt
    unfold Layer.current_amp_numerator
    rw [if_pos h2, hprev, wrapSub_of_le _ _ hle hlt]
  · have e : Layer.fade ⟨[], 0, 44100, none, [], 0, []⟩ 1 0 2 1
        = ⟨[⟨132300, 1⟩, ⟨44100, 0⟩], 0, 44100, none, [], 0, []⟩ := by
      unfold Layer.fade
      rw [dur_to_sample_44100_1, dur_to_sample_44100_3]
      rfl
    rw [e]
    rfl
  · have e9 : dur_to_sample 10 (((100 : ℕ) : ℚ) / ((10 : ℕ) : ℚ) - 1) = 90 := by
      unfold dur_to_sample
      norm_num
      omega
    have e10 : dur_to_sample 10 ((((100 : ℕ) : ℚ) / ((10 : ℕ) : ℚ) - 1) + 1)
        = 100 := by
      unfold dur_to_sample
      norm_num
      omega
    have e : Layer.fade_in_out ⟨[], 0, 10, some 100, [], 0, []⟩ none (some 1)
        = some ⟨[⟨100, 0⟩, ⟨90, 1⟩], 0, 10, some 100, [], 0, []⟩ := by
      show (if (1 : ℚ) ≤ ((100 : ℕ) : ℚ) / ((10 : ℕ) : ℚ)
          then some ((⟨[], 0, 10, some 100, [], 0, []⟩ : Layer).fade
            (((100 : ℕ) : ℚ) / ((10 : ℕ) : ℚ) - 1) 1 1 0)
          else none)
        = some ⟨[⟨100, 0⟩, ⟨90, 1⟩], 0, 10, some 100, [], 0, []⟩
      rw [if_pos (by norm_num : (1 : ℚ) ≤ ((100 : ℕ) : ℚ) / ((10 : ℕ) : ℚ))]
      unfold Layer.fade
      rw [e9, e10]
      rfl
    rw [e]
    rfl

/-- Witness for C10 at a layer whose earliest keyframe lies at sample 2 with
playback position 10: the numerator is the true difference 8. -/
theorem c10_witness :
    (⟨[⟨5, 1⟩, ⟨2, 1⟩], 10, 44100, none, [], 0, []⟩ : Layer).current_amp_numerator
      = some 8 :=
  c10_current_amp_underflow.1 ⟨[⟨5, 1⟩, ⟨2, 1⟩], 10, 44100, none, [], 0, []⟩
    ⟨2, 1⟩ (by norm_num) rfl (by norm_num) (by norm_num [USIZE_MOD])

/-- Claim C6: one update of a moving-average amplitude level for a newly
received chunk of length `L` (the most recent chunk of channel 0) and a
window of `N` samples computes
`old * (N - L)/N + (max over channels of the chunk power) * L/N`,
the subtraction taken in `ℝ` (the code's `usize` subtraction agrees with it
under `L ≤ N`). -/
theorem c6_moving_average_update :
    ∀ (old : ℝ) (N : ℕ) (b0 : List (List ℝ)) (rest : List (List (List ℝ)))
      (lc : List ℝ) (powers : List ℝ) (P : ℝ),
      b0.getLast? = some lc →
      ((b0 :: rest).mapM (fun (chunks : List (List ℝ)) =>
        (chunks.getLast?).bind audio_power)) = some powers →
      powers.max? = some P →
      lc.length ≤ N → 0 < N →
      chunked_moving_average_amp old N (b0 :: rest)
        = some (old * (((N : ℝ) - (lc.length : ℝ)) / (N : ℝ))
            + P * (lc.length : ℝ) / (N : ℝ)) := by
  intro old N b0 rest lc powers P hlast hmap hmax hLN hN
  unfold chunked_moving_average_amp
  simp only [List.head?_cons, Option.some_bind, hlast, hmap, hmax]
  rw [Nat.cast_sub hLN]
  rfl

/-- Witness for C6: one channel whose latest chunk is `[1]` (power 0 dB),
window 2, previous average 4. -/
theorem c6_witness :
    chunked_moving_average_amp 4 2 [[[1]]]
      = some (4 * (((2 : ℝ) - 1) / 2) + 0 * 1 / 2) := by
  have hpow : audio_power [(1 : ℝ)] = some 0 := by
    simp [audio_power, maxAbs, relative_decibels, MIN_DECIBELS]
  have h := c6_moving_average_update 4 2 [[1]] [] [1] [0] 0 rfl
    (by simp [List.mapM, List.mapM.loop, hpow])
    (by simp [List.max?])
    (by norm_num) (by norm_num)
  rw [h]
  norm_num

/-- A monadic map over `Option` succeeds when it succeeds on every element. -/
theorem optionMapM_some {α β : Type} (f : α → Option β) :
    ∀ l : List α, (∀ a ∈ l, (f a).isSome) → ∃ out, l.mapM f = some out := by
  intro l
  induction l with
  | nil => intro _; exact ⟨[], rfl⟩
  | cons a t ih =>
    intro h
    obtain ⟨b, hb⟩ := Option.isSome_iff_exists.mp (h a (by simp))
    obtain ⟨out, hout⟩ := ih (fun x hx => h x (by simp [hx]))
    refine ⟨b :: out, ?_⟩
    rw [List.mapM_cons, hb, hout]
    rfl

/-- The per-index channel scaling of `load_next_chunk` succeeds when `idx` is
in bounds for every channel, and preserves all channel lengths. -/
theorem scaleChannels_some (amp : ℝ) (idx : ℕ) :
    ∀ chunk : List (List ℝ), (∀ ch ∈ chunk, idx < ch.length) →
      ∃ out, (chunk.mapM (fun ch =>
          if h : idx < ch.length then some (ch.set idx (ch.get ⟨idx, h⟩ * amp))
          else none)) = some out
        ∧ out.map List.length = chunk.map List.length := by
  intro chunk
  induction chunk with
  | nil => intro _; exact ⟨[], rfl, rfl⟩
  | cons ch t ih =>
    intro h
    have hch : idx < ch.length := h ch (by simp)
    obtain ⟨out, hout, hlen⟩ := ih (fun x hx => h x (by simp [hx]))
    refine ⟨ch.set idx (ch.get ⟨idx, hch⟩ * amp) :: out, ?_, ?_⟩
    · rw [List.mapM_cons, dif_pos hch, hout]
      rfl
    · simp [hlen]

/-- The amplitude loop of `load_next_chunk` succeeds when every channel can
serve all remaining indices, advances the playback position by the index
count, and preserves all channel lengths. -/
theorem ampScaleGo_some (kfs : List Keyframe) :
    ∀ (n total idx : ℕ) (chunk : List (List ℝ)),
      (∀ ch ∈ chunk, idx + n ≤ ch.length) →
      ∃ out, ampScaleGo kfs n total idx chunk = some (out, total + n) ∧
        out.map List.length = chunk.map List.length := by
  intro n
  induction n with
  | zero => intro total idx chunk _; exact ⟨chunk, by simp [ampScaleGo], rfl⟩
  | succ n ih =>
    intro total idx chunk h
    obtain ⟨mid, hmid, hmlen⟩ := scaleChannels_some (currentAmpAt kfs total) idx
      chunk (fun ch hch => by have := h ch hch; omega)
    have h2 : ∀ ch ∈ mid, idx + 1 + n ≤ ch.length := by
      intro ch hch
      have hl : ch.length ∈ chunk.map List.length := by
        rw [← hmlen]; exact List.mem_map_of_mem _ hch
      obtain ⟨orig, ho, he⟩ := List.mem_map.mp hl
      have := h orig ho
      omega
    obtain ⟨out, hout, holen⟩ := ih (total + 1) (idx + 1) mid h2
    refine ⟨out, ?_, by rw [holen, hmlen]⟩
    simp only [ampScaleGo, hmid, Option.some_bind]
    rw [hout]
    have harith : total + 1 + n = total + (n + 1) := by omega
    rw [harith]

/-- A layer whose chunks are well formed loads its next chunk without any
out-of-bounds access, and the loaded layer is again well formed (or the bus
has disconnected and the layer is evicted). -/
theorem load_next_chunk_some (width : ℕ) (l : Layer)
    (hwf : layerChunksWF width l) :
    ∃ res, l.load_next_chunk = some res ∧
      ∀ l2, res = some l2 → layerChunksWF width l2 ∧ l2.buffer_pos = 0 ∧
        0 < (l2.buffer.headD []).length := by
  rcases hq : l.queue with _ | ⟨chunk, rest⟩
  · refine ⟨none, ?_, by intro l2 hl2; cases hl2⟩
    unfold Layer.load_next_chunk
    rw [hq]
  · have hcwf : chunkWF width chunk := hwf.2 chunk (by rw [hq]; simp)
    rcases hc : chunk with _ | ⟨c0, ct⟩
    · rw [hc] at hcwf
      exact absurd hcwf.2.1 (by simp)
    · subst hc
      have hlen0 : ∀ ch ∈ c0 :: ct, ch.length = c0.length := by
        have := hcwf.2.2
        simpa using this
      obtain ⟨out, hout, hmlen⟩ := ampScaleGo_some
        (prune_keyframes l.amp_keyframes l.total_samples_played)
        c0.length l.total_samples_played 0 (c0 :: ct)
        (fun ch hch => by rw [hlen0 ch hch]; omega)
      refine ⟨some { l with
          amp_keyframes := prune_keyframes l.amp_keyframes l.total_samples_played,
          total_samples_played := l.total_samples_played + c0.length,
          buffer := out,
          buffer_pos := 0,
          queue := rest }, ?_, ?_⟩
      · simp only [Layer.load_next_chunk, hq, List.head?_cons, Option.some_bind]
        rw [hout]
        rfl
      intro l2 hl2
      obtain rfl : l2 = { l with
          amp_keyframes := prune_keyframes l.amp_keyframes l.total_samples_played,
          total_samples_played := l.total_samples_played + c0.length,
          buffer := out, buffer_pos := 0, queue := rest } := by
        cases hl2; rfl
      have houtlen : out.length = ct.length + 1 := by
        have := congrArg List.length hmlen
        simpa using this
      have hheads : out.head?.map List.length = some c0.length := by
        have := congrArg List.head? hmlen
        rw [List.head?_map, List.head?_map] at this
        simpa using this
      match ho : out, houtlen, hheads, hmlen with
      | [], houtlen, _, _ => simp at houtlen
      | o0 :: ot, houtlen, hheads, hmlen =>
        have ho0 : o0.length = c0.length := by
          simpa using hheads
        have hall : ∀ ch ∈ o0 :: ot, ch.length = o0.length := by
          intro ch hch
          have hl : ch.length ∈ (o0 :: ot).map List.length := List.mem_map_of_mem _ hch
          rw [hmlen] at hl
          obtain ⟨orig, hor, he⟩ := List.mem_map.mp hl
          rw [ho0, ← he, hlen0 orig hor]
        refine ⟨⟨⟨?_, ?_, ?_⟩, ?_⟩, rfl, ?_⟩
        · have hlen : (c0 :: ct).length = (o0 :: ot).length := by
            simpa using houtlen.symm
          calc width ≤ (c0 :: ct).length := hcwf.1
            _ = (o0 :: ot).length := hlen
        · simpa [ho0] using hcwf.2.1
        · simpa using hall
        · intro c hcm
          exact hwf.2 c (by rw [hq]; simp [hcm])
        · simpa [ho0] using hcwf.2.1

/-- One `fill_buffer` frame slot on a well-formed layer performs no
out-of-bounds access, and the surviving layer is again well formed. -/
theorem mixFrameStep_preserves (width : ℕ) (l : Layer)
    (hwf : layerChunksWF width l) :
    ∃ res, mixFrameStep width l = some res ∧
      ∀ fr l2, res = some (fr, l2) → layerChunksWF width l2 := by
  rcases hb : l.buffer with _ | ⟨b0, bt⟩
  · exfalso
    have := hwf.1.2.1
    rw [hb] at this
    simp at this
  · have hwf1 := hwf.1
    rw [hb] at hwf1
    by_cases hpos : b0.length ≤ l.buffer_pos
    · obtain ⟨res0, hres0, hres0wf⟩ := load_next_chunk_some width l hwf
      cases res0 with
      | none =>
        refine ⟨none, ?_, by intro fr l2 h; cases h⟩
        simp only [mixFrameStep, hb, List.head?_cons, Option.some_bind,
          if_pos hpos, hres0, Option.some_bind]
      | some l2 =>
        obtain ⟨hl2wf, hl2pos, hl2head⟩ := hres0wf l2 rfl
        have hacc : ∀ c ∈ List.range width,
            ((l2.buffer.get? c).bind (fun ch => ch.get? l2.buffer_pos)).isSome := by
          intro c hc
          have hcw : c < width := List.mem_range.mp hc
          have hclen : c < l2.buffer.length := lt_of_lt_of_le hcw hl2wf.1.1
          rw [List.get?_eq_get hclen, Option.some_bind]
          have hmem := List.get_mem l2.buffer c hclen
          have hcl := hl2wf.1.2.2 _ hmem
          rw [List.get?_eq_get (by rw [hcl, hl2pos]; exact hl2wf.1.2.1)]
          rfl
        obtain ⟨frame, hframe⟩ := optionMapM_some _ (List.range width) hacc
        refine ⟨some (frame, { l2 with buffer_pos := l2.buffer_pos + 1 }), ?_, ?_⟩
        · simp only [mixFrameStep, hb, List.head?_cons, Option.some_bind,
            if_pos hpos, hres0, Option.some_bind]
          rw [hframe]
          rfl
        · intro fr l2x h
          cases h
          exact hl2wf
    · have hlt : l.buffer_pos < b0.length := Nat.lt_of_not_le hpos
      have hacc : ∀ c ∈ List.range width,
          ((l.buffer.get? c).bind (fun ch => ch.get? l.buffer_pos)).isSome := by
        intro c hc
        have hcw : c < width := List.mem_range.mp hc
        have hclen : c < l.buffer.length := by
          rw [hb]
          exact lt_of_lt_of_le hcw hwf1.1
        rw [List.get?_eq_get hclen, Option.some_bind]
        have hmem := List.get_mem l.buffer c hclen
        have hcl := hwf.1.2.2 _ hmem
        have hb0 : (l.buffer.headD []).length = b0.length := by rw [hb]; rfl
        rw [List.get?_eq_get (by rw [hcl, hb0]; exact hlt)]
        rfl
      obtain ⟨frame, hframe⟩ := optionMapM_some _ (List.range width) hacc
      refine ⟨some (frame, { l with buffer_pos := l.buffer_pos + 1 }), ?_, ?_⟩
      · simp only [mixFrameStep, hb, List.head?_cons, Option.some_bind,
          if_neg hpos, Option.some_bind]
        rw [← hb, hframe]
        rfl
      · intro fr l2x h
        cases h
        exact hwf

/-- Iterating frame slots on a well-formed layer never goes out of bounds. -/
theorem fill_buffer_layer_some (width : ℕ) :
    ∀ (n : ℕ) (l : Layer), layerChunksWF width l →
      ∃ res, fill_buffer_layer n width l = some res := by
  intro n
  induction n with
  | zero => intro l _; exact ⟨some l, rfl⟩
  | succ n ih =>
    intro l h
    obtain ⟨res, hres, hpres⟩ := mixFrameStep_preserves width l h
    cases res with
    | none =>
      refine ⟨none, ?_⟩
      simp only [fill_buffer_layer, hres, Option.some_bind]
    | some p =>
      obtain ⟨fr, l2⟩ := p
      obtain ⟨out, hout⟩ := ih l2 (hpres fr l2 rfl)
      refine ⟨out, ?_⟩
      simp only [fill_buffer_layer, hres, Option.some_bind]
      exact hout

/-- Claim C9: `fill_buffer` reads `buffer.data[channel_idx][buffer_pos]`
for every output channel while testing `buffer_pos` against channel 0 only;
under the precondition that every chunk has equally long channels, at least
as many of them as the output width (and at least one sample), no access is
out of bounds for any number of frame slots — while a current chunk whose
second channel is shorter than channel 0 drives the access out of bounds
(modelled as `none`) on the second frame slot. -/
theorem c9_fill_buffer_indexing :
    (∀ (n width : ℕ) (l : Layer), layerChunksWF width l →
      ∃ res, fill_buffer_layer n width l = some res) ∧
    fill_buffer_layer 2 2 ⟨[], 0, 44100, none, [[1, 1], [1]], 0, []⟩ = none := by
  constructor
  · intro n width l h
    exact fill_buffer_layer_some width n l h
  · rfl

/-- Witness for C9 on a one-channel layer holding the single chunk `[[5]]`. -/
theorem c9_witness :
    ∃ res, fill_buffer_layer 1 1 ⟨[], 0, 44100, none, [[5]], 0, []⟩ = some res := by
  refine c9_fill_buffer_indexing.1 1 1 _ ⟨⟨?_, ?_, ?_⟩, ?_⟩
  · norm_num
  · norm_num
  · intro ch hch
    simp at hch
    subst hch
    rfl
  · intro c hc
    simp at hc

/-- The abs-max fold over a list of zeros stays at zero. -/
theorem foldl_maxAbs_zero_of : ∀ (t : List ℝ), (∀ x ∈ t, x = 0) →
    List.foldl (fun acc x => max acc |x|) (0 : ℝ) t = 0 := by
  intro t
  induction t with
  | nil => intro _; rfl
  | cons a s ih =>
    intro h
    rw [List.foldl_cons, h a (by simp)]
    have : max (0 : ℝ) |(0 : ℝ)| = 0 := by simp
    rw [this]
    exact ih (fun x hx => h x (by simp [hx]))

/-- The power of a nonempty all-zero chunk is exactly the floor. -/
theorem audio_power_silent (chunk : List ℝ) (hne : chunk ≠ [])
    (hz : ∀ x ∈ chunk, x = 0) : audio_power chunk = some MIN_DECIBELS := by
  rcases chunk with _ | ⟨s, t⟩
  · exact absurd rfl hne
  · have hs : s = 0 := hz s (by simp)
    subst hs
    have ht : List.foldl (fun acc x => max acc |x|) (0 : ℝ) t = 0 :=
      foldl_maxAbs_zero_of t (fun x hx => hz x (by simp [hx]))
    simp [audio_power, maxAbs, relative_decibels, ht]

/-- The per-channel power map over buffers whose last chunks all have power
`m` yields a constant list. -/
theorem mapM_powers_const (m : ℝ) : ∀ (bufs : List (List (List ℝ))),
    (∀ b ∈ bufs, (b.getLast?).bind audio_power = some m) →
    bufs.mapM (fun (chunks : List (List ℝ)) => (chunks.getLast?).bind audio_power)
      = some (List.replicate bufs.length m) := by
  intro bufs
  induction bufs with
  | nil => intro _; rfl
  | cons b t ih =>
    intro h
    rw [List.mapM_cons, h b (by simp), ih (fun x hx => h x (by simp [hx]))]
    rfl

/-- Folding `max` over copies of the accumulator is the identity. -/
theorem foldl_max_replicate (m : ℝ) : ∀ k, List.foldl max m (List.replicate k m) = m := by
  intro k
  induction k with
  | zero => rfl
  | succ n ih =>
    rw [List.replicate_succ, List.foldl_cons, max_self]
    exact ih

/-- The maximum of a nonempty constant list. -/
theorem max?_replicate (m : ℝ) (k : ℕ) :
    (List.replicate (k + 1) m).max? = some m := by
  rw [List.replicate_succ]
  simp only [List.max?]
  rw [foldl_max_replicate]

/-- One exponential-moving-average update with a floor sample `m ≤ c ≤ a`:
the faster average (window `Nc`) stays at least `m` and remains below the
slower one (window `Na ≥ Nc`). -/
theorem ema_update_bounds (a c m : ℝ) (L Nc Na : ℕ)
    (hmc : m ≤ c) (hca : c ≤ a) (hNc : 0 < Nc) (hNN : Nc ≤ Na) (hL : L ≤ Nc) :
    m ≤ c * ((↑(Nc - L) : ℝ) / Nc) + m * L / Nc ∧
    c * ((↑(Nc - L) : ℝ) / Nc) + m * L / Nc
      ≤ a * ((↑(Na - L) : ℝ) / Na) + m * L / Na := by
  have hNa : 0 < Na := lt_of_lt_of_le hNc hNN
  have hncR : (0 : ℝ) < Nc := by exact_mod_cast hNc
  have hnaR : (0 : ℝ) < Na := by exact_mod_cast hNa
  have hLNa : L ≤ Na := le_trans hL hNN
  rw [Nat.cast_sub hL, Nat.cast_sub hLNa]
  have hx0 : (0 : ℝ) ≤ (L : ℝ) := Nat.cast_nonneg L
  have hxc : (L : ℝ) ≤ (Nc : ℝ) := by exact_mod_cast hL
  have idc : c * (((Nc : ℝ) - L) / Nc) + m * L / Nc
      = c - ((L : ℝ) / Nc) * (c - m) := by
    field_simp
    ring
  have ida : a * (((Na : ℝ) - L) / Na) + m * L / Na
      = a - ((L : ℝ) / Na) * (a - m) := by
    field_simp
    ring
  rw [idc, ida]
  have hlc1 : (L : ℝ) / Nc ≤ 1 := by
    rw [div_le_one hncR]
    exact hxc
  have hlc0 : (0 : ℝ) ≤ (L : ℝ) / Nc := div_nonneg hx0 (le_of_lt hncR)
  have hla0 : (0 : ℝ) ≤ (L : ℝ) / Na := div_nonneg hx0 (le_of_lt hnaR)
  have hlac : (L : ℝ) / Na ≤ (L : ℝ) / Nc :=
    div_le_div_of_nonneg_left hx0 hncR (by exact_mod_cast hNN)
  constructor
  · nlinarith [mul_nonneg (sub_nonneg.mpr hmc) (sub_nonneg.mpr hlc1)]
  · nlinarith [mul_nonneg (sub_nonneg.mpr hca) (sub_nonneg.mpr hlc1),
      mul_nonneg (sub_nonneg.mpr hlac) (sub_nonneg.mpr (le_trans hmc hca))]

/-- The moving-average update over buffers whose latest chunks are all silent
evaluates to the floor-weighted average formula. -/
theorem cma_silent (old : ℝ) (N : ℕ) (b0 : List (List ℝ))
    (t : List (List (List ℝ))) (c0 : List ℝ)
    (hl : b0.getLast? = some c0)
    (hall : ∀ b ∈ b0 :: t, (b.getLast?).bind audio_power = some MIN_DECIBELS) :
    chunked_moving_average_amp old N (b0 :: t)
      = some (old * ((↑(N - c0.length) : ℝ) / N)
          + MIN_DECIBELS * c0.length / N) := by
  unfold chunked_moving_average_amp
  rw [List.head?_cons, Option.some_bind, hl, Option.some_bind,
    mapM_powers_const MIN_DECIBELS _ hall, Option.some_bind,
    List.length_cons, max?_replicate]
  rfl

/-- Appending a chunk leaves it as the ring's most recent element. -/
theorem pushRecChunk_getLast (buf : List (List ℝ)) (chunk : List ℝ) :
    (pushRecChunk buf chunk).1.getLast? = some chunk := by
  unfold pushRecChunk
  split
  · simp
  · simp

/-- One silent-input iteration of the installation main loop keeps the
state machine in Idle and preserves the amplitude-ordering invariant. -/
theorem installation_step_silent (ambientN currentN : ℕ) (activation_step : ℝ)
    (timeOk : Bool) (newChunks : List (List ℝ)) (st : InstallationState)
    (hidle : st.listening_state = .Idle)
    (hmc : MIN_DECIBELS ≤ st.current_amplitude)
    (hca : st.current_amplitude ≤ st.ambient_amplitude)
    (hch : newChunks.length = st.recording_buffers.length)
    (hne : newChunks ≠ [])
    (hstep : 0 ≤ activation_step)
    (hNc : 0 < currentN) (hNN : currentN ≤ ambientN)
    (hchunks : ∀ c ∈ newChunks, c ≠ [] ∧ (∀ x ∈ c, x = 0) ∧ c.length ≤ currentN) :
    ∃ st2, installation_step ambientN currentN activation_step timeOk newChunks st
        = some st2 ∧
      st2.listening_state = .Idle ∧
      MIN_DECIBELS ≤ st2.current_amplitude ∧
      st2.current_amplitude ≤ st2.ambient_amplitude ∧
      st2.recording_buffers.length = st.recording_buffers.length := by
  obtain ⟨amb, cur, bufs, lst, lstart⟩ := st
  simp only at hidle hmc hca hch
  subst hidle
  rcases hnc : newChunks with _ | ⟨nc0, nct⟩
  · exact absurd hnc hne
  subst hnc
  rcases hrb : bufs with _ | ⟨rb0, rbt⟩
  · rw [hrb] at hch
    simp at hch
  subst hrb
  have hall2 : ∀ b ∈ (pushRecChunk rb0 nc0).1 ::
        ((rbt.zip nct).map (fun p => pushRecChunk p.1 p.2)).map Prod.fst,
      (b.getLast?).bind audio_power = some MIN_DECIBELS := by
    intro b hb
    rcases List.mem_cons.mp hb with hb1 | hb2
    · subst hb1
      rw [pushRecChunk_getLast, Option.some_bind]
      obtain ⟨hcz, hnz, _⟩ := hchunks nc0 (by simp)
      exact audio_power_silent nc0 hcz hnz
    · obtain ⟨pr, hpr, rfl⟩ := List.mem_map.mp hb2
      obtain ⟨p, hp, rfl⟩ := List.mem_map.mp hpr
      have hmem := List.of_mem_zip hp
      obtain ⟨hcz, hnz, _⟩ := hchunks p.2 (by simp [hmem.2])
      rw [pushRecChunk_getLast, Option.some_bind]
      exact audio_power_silent p.2 hcz hnz
  obtain ⟨hnc0ne, hnc0z, hnc0len⟩ := hchunks nc0 (by simp)
  have hA := cma_silent amb ambientN (pushRecChunk rb0 nc0).1
    (((rbt.zip nct).map (fun p => pushRecChunk p.1 p.2)).map Prod.fst)
    nc0 (pushRecChunk_getLast rb0 nc0) hall2
  have hC := cma_silent cur currentN (pushRecChunk rb0 nc0).1
    (((rbt.zip nct).map (fun p => pushRecChunk p.1 p.2)).map Prod.fst)
    nc0 (pushRecChunk_getLast rb0 nc0) hall2
  have hboundsC := ema_update_bounds amb cur
    MIN_DECIBELS nc0.length currentN ambientN hmc hca hNc hNN hnc0len
  refine ⟨⟨amb * ((↑(ambientN - nc0.length) : ℝ) / ambientN)
      + MIN_DECIBELS * nc0.length / ambientN,
    cur * ((↑(currentN - nc0.length) : ℝ) / currentN)
      + MIN_DECIBELS * nc0.length / currentN,
    (pushRecChunk rb0 nc0).1 ::
      ((rbt.zip nct).map (fun p => pushRecChunk p.1 p.2)).map Prod.fst,
    .Idle,
    if (pushRecChunk rb0 nc0 ::
        (rbt.zip nct).map (fun p => pushRecChunk p.1 p.2)).any Prod.snd
    then lstart - 1
    else lstart⟩, ?_, rfl, ?_, ?_, ?_⟩
  · unfold installation_step
    rw [if_pos hch]
    simp only [List.zip_cons_cons, List.map_cons, List.head?_cons]
    rw [hA, hC]
    simp only [Option.some_bind, Option.map_some']
    have hnot : ¬ (timeOk = true ∧ (pushRecChunk rb0 nc0).1.length > REC_BUF_CHUNKS / 2
        ∧ cur * ((↑(currentN - nc0.length) : ℝ) / currentN)
            + MIN_DECIBELS * nc0.length / currentN
          > amb * ((↑(ambientN - nc0.length) : ℝ) / ambientN)
            + MIN_DECIBELS * nc0.length / ambientN + activation_step) := by
      intro hcond
      have h1 := hcond.2.2
      have h2 := hboundsC.2
      linarith
    rw [if_neg hnot]
  · exact hboundsC.1
  · exact hboundsC.2
  · have hlen : nct.length = rbt.length := by simpa using hch
    simp [List.length_zip, hlen]

/-- Claim C8: if every chunk the recorder delivers is silent (all-zero),
the installation controller's `listening_state` never leaves Idle, for any
number of main-loop iterations, any channel count, and any cool-down timing,
provided the chunk lengths stay within the faster (current) window and the
current window is no larger than the ambient one (the configuration shape:
300 ms versus 10 s at the same sample rate) with a nonnegative activation
step. -/
theorem c8_silent_stays_idle :
    ∀ (channels ambientN currentN : ℕ) (activation_step : ℝ)
      (inputs : ℕ → Bool × List (List ℝ)),
      0 < channels → 0 < currentN → currentN ≤ ambientN → 0 ≤ activation_step →
      (∀ k, ((inputs k).2).length = channels ∧
        ∀ c ∈ (inputs k).2, c ≠ [] ∧ (∀ x ∈ c, x = 0) ∧ c.length ≤ currentN) →
      ∀ n, ∃ st, installation_run ambientN currentN activation_step inputs n
          (initialInstallationState channels) = some st ∧
        st.listening_state = ListeningState.Idle := by
  intro channels ambientN currentN step inputs hpos hNc hNN hstep hin n
  suffices h : ∀ (n : ℕ) (st : InstallationState),
      st.listening_state = .Idle →
      MIN_DECIBELS ≤ st.current_amplitude →
      st.current_amplitude ≤ st.ambient_amplitude →
      st.recording_buffers.length = channels →
      ∃ st2, installation_run ambientN currentN step inputs n st = some st2 ∧
        st2.listening_state = .Idle by
    exact h n (initialInstallationState channels) rfl
      (by norm_num [initialInstallationState, MIN_DECIBELS])
      (by norm_num [initialInstallationState])
      (by simp [initialInstallationState])
  intro n
  induction n with
  | zero =>
    intro st h1 _ _ _
    exact ⟨st, rfl, h1⟩
  | succ n ih =>
    intro st h1 h2 h3 h4
    obtain ⟨st2, hst2, hidle2, hc2, hca2, hlen2⟩ :=
      installation_step_silent ambientN currentN step (inputs n).1 (inputs n).2
        st h1 h2 h3 (by rw [h4]; exact (hin n).1)
        (by
          intro he
          have hl := (hin n).1
          rw [he] at hl
          simp at hl
          omega)
        hstep hNc hNN (hin n).2
    obtain ⟨out, hout, hidleout⟩ := ih st2 hidle2 hc2 hca2 (by rw [hlen2, h4])
    refine ⟨out, ?_, hidleout⟩
    simp only [installation_run, hst2, Option.some_bind]
    exact hout

/-- Witness for C8: one channel delivering the silent chunk `[0]` on every
iteration, both windows of size 1, activation step 0, two iterations. -/
theorem c8_witness :
    ∃ st, installation_run 1 1 0 (fun _ => (true, [[0]])) 2
        (initialInstallationState 1) = some st ∧
      st.listening_state = ListeningState.Idle :=
  c8_silent_stays_idle 1 1 1 0 (fun _ => (true, [[0]]))
    (by norm_num) (by norm_num) (by norm_num) (by norm_num)
    (fun k => ⟨rfl, by
      intro c hc
      simp at hc
      subst hc
      exact ⟨by simp, by intro x hx; simpa using hx, by simp⟩⟩) 2

end Rocoder
